import Mathlib

set_option maxHeartbeats 2000000
set_option maxRecDepth 4000

namespace TcpProxy

/-! Shallow embedding of tyilo/tcp-proxy (src/main.rs). Bytes are modelled as
natural numbers, byte buffers as lists of naturals. The HTTP request-header
parser embeds the behaviour of the external httparse crate's Request::parse
(request line, then header lines, with a fixed header-slot capacity), which
main.rs drives through parse_http_request_headers with capacity doubling. -/

/-- Error kinds of the header parser, mirroring the httparse error variants
that parse_http_request_headers in main.rs can observe and propagate. -/
inductive HErr
  | newLine
  | token
  | version
  | headerName
  | headerValue
  | tooManyHeaders
deriving DecidableEq

/-- Outcome of one parsing stage: a completed value, an indication that more
input is needed, or a parse error. -/
inductive ParseStatus (α : Type)
  | complete (v : α)
  | incomplete
  | err (e : HErr)
deriving DecidableEq

/-- Method bytes accepted by httparse: printable ASCII, with space (which
terminates the method) excluded. -/
abbrev isToken (b : Nat) : Prop := 33 ≤ b ∧ b ≤ 126

/-- Request-target bytes accepted by httparse: printable ASCII except space,
plus obs-text bytes 0x80 and above; DEL (0x7F) is rejected. -/
abbrev isUriChar (b : Nat) : Prop := (33 ≤ b ∧ b ≤ 126) ∨ 128 ≤ b

/-- Header-name bytes accepted by httparse: the RFC 7230 token characters. -/
abbrev isHeaderNameChar (b : Nat) : Prop :=
  b = 33 ∨ (35 ≤ b ∧ b ≤ 39) ∨ b = 42 ∨ b = 43 ∨ b = 45 ∨ b = 46 ∨
  (48 ≤ b ∧ b ≤ 57) ∨ (65 ≤ b ∧ b ≤ 90) ∨ (94 ≤ b ∧ b ≤ 122) ∨ b = 124 ∨ b = 126

/-- Header-value bytes accepted by httparse: horizontal tab or any byte from
0x20 on, except DEL (0x7F). CR and LF terminate the value. -/
abbrev isHeaderValueChar (b : Nat) : Prop := b = 9 ∨ (32 ≤ b ∧ b ≠ 127)

/-- Skip any leading empty lines (CRLF or bare LF) before the request line,
as httparse does. A CR not followed by LF is a newline error. -/
def skipEmptyLines : List Nat → ParseStatus (List Nat)
  | [] => .incomplete
  | b :: rest =>
    if b = 13 then
      match rest with
      | [] => .incomplete
      | b2 :: r2 => if b2 = 10 then skipEmptyLines r2 else .err .newLine
    else if b = 10 then skipEmptyLines rest
    else .complete (b :: rest)

/-- Consume method bytes until the terminating space; a non-token byte other
than space is a token error. Returns the method and the rest of the input. -/
def parseTokenLoop : List Nat → ParseStatus (List Nat × List Nat)
  | [] => .incomplete
  | b :: rest =>
    if b = 32 then .complete ([], rest)
    else if isToken b then
      match parseTokenLoop rest with
      | .complete (tok, rem) => .complete (b :: tok, rem)
      | .incomplete => .incomplete
      | .err e => .err e
    else .err .token

/-- Parse the request method: a nonempty run of token bytes ended by a space. -/
def parseToken : List Nat → ParseStatus (List Nat × List Nat)
  | [] => .incomplete
  | b :: rest =>
    if isToken b then
      match parseTokenLoop rest with
      | .complete (tok, rem) => .complete (b :: tok, rem)
      | .incomplete => .incomplete
      | .err e => .err e
    else .err .token

/-- Consume request-target bytes until the terminating space. -/
def parseUriLoop : List Nat → ParseStatus (List Nat × List Nat)
  | [] => .incomplete
  | b :: rest =>
    if b = 32 then .complete ([], rest)
    else if isUriChar b then
      match parseUriLoop rest with
      | .complete (u, rem) => .complete (b :: u, rem)
      | .incomplete => .incomplete
      | .err e => .err e
    else .err .token

/-- Parse the request target: a nonempty run of URI bytes ended by a space. -/
def parseUri : List Nat → ParseStatus (List Nat × List Nat)
  | [] => .incomplete
  | b :: rest =>
    if isUriChar b then
      match parseUriLoop rest with
      | .complete (u, rem) => .complete (b :: u, rem)
      | .incomplete => .incomplete
      | .err e => .err e
    else .err .token

/-- The seven bytes of the literal HTTP/1. expected before the minor version. -/
def versionLead : List Nat := [72, 84, 84, 80, 47, 49, 46]

/-- Parse the protocol version: exactly the bytes HTTP/1.0 or HTTP/1.1, giving
minor version 0 or 1. Fewer than eight bytes that still match a prefix of the
expected literal are incomplete; any mismatch is a version error. -/
def parseVersion (l : List Nat) : ParseStatus (Nat × List Nat) :=
  if h : 8 ≤ l.length then
    if l.take 7 = versionLead then
      if l.get ⟨7, by omega⟩ = 48 then .complete (0, l.drop 8)
      else if l.get ⟨7, by omega⟩ = 49 then .complete (1, l.drop 8)
      else .err .version
    else .err .version
  else if versionLead.take l.length = l then .incomplete
  else .err .version

/-- Parse the line terminator after the request line: CRLF or bare LF. -/
def parseNewline : List Nat → ParseStatus (List Nat)
  | [] => .incomplete
  | b :: rest =>
    if b = 13 then
      match rest with
      | [] => .incomplete
      | b2 :: r2 => if b2 = 10 then .complete r2 else .err .newLine
    else if b = 10 then .complete rest
    else .err .newLine

/-- A parsed header: a name and a value, as byte lists (httparse::Header). -/
structure Header where
  name : List Nat
  value : List Nat
deriving DecidableEq

/-- The empty header used to fill unparsed slots (httparse::EMPTY_HEADER). -/
def emptyHeader : Header := ⟨[], []⟩

/-- Consume header-name bytes up to the colon. -/
def parseHeaderNameLoop : List Nat → ParseStatus (List Nat × List Nat)
  | [] => .incomplete
  | b :: rest =>
    if b = 58 then .complete ([], rest)
    else if isHeaderNameChar b then
      match parseHeaderNameLoop rest with
      | .complete (nm, r) => .complete (b :: nm, r)
      | .incomplete => .incomplete
      | .err e => .err e
    else .err .headerName

/-- Skip spaces and horizontal tabs between the colon and the header value. -/
def skipValueWhitespace : List Nat → ParseStatus (List Nat)
  | [] => .incomplete
  | b :: rest =>
    if b = 32 ∨ b = 9 then skipValueWhitespace rest else .complete (b :: rest)

/-- Consume header-value bytes until CRLF or bare LF; a CR not followed by LF,
or a control byte, is a header-value error. -/
def parseValueLoop : List Nat → ParseStatus (List Nat × List Nat)
  | [] => .incomplete
  | b :: rest =>
    if b = 13 then
      match rest with
      | [] => .incomplete
      | b2 :: r2 => if b2 = 10 then .complete ([], r2) else .err .headerValue
    else if b = 10 then .complete ([], rest)
    else if isHeaderValueChar b then
      match parseValueLoop rest with
      | .complete (v, r) => .complete (b :: v, r)
      | .incomplete => .incomplete
      | .err e => .err e
    else .err .headerValue

/-- Parse a header value: optional leading whitespace, then value bytes up to
the end of the line. -/
def parseHeaderValue (l : List Nat) : ParseStatus (List Nat × List Nat) :=
  match skipValueWhitespace l with
  | .incomplete => .incomplete
  | .err e => .err e
  | .complete r => parseValueLoop r

/-- A byte is a space or a horizontal tab. -/
abbrev isWsByte (b : Nat) : Prop := b = 32 ∨ b = 9

/-- Remove trailing spaces and tabs from a header value, as httparse does
before storing it. -/
def trimValue (v : List Nat) : List Nat :=
  (v.reverse.dropWhile (fun b => decide (isWsByte b))).reverse

/-- After a CR, expect a LF: the continuation of a line terminator. -/
def parseCrLfTail : List Nat → ParseStatus (List Nat)
  | [] => .incomplete
  | b2 :: r2 => if b2 = 10 then .complete r2 else .err .newLine

/-- The header-section loop of httparse with a slot capacity: an empty line
ends the section; otherwise a header line is parsed and stored if a slot
remains, and the too-many-headers error is reported once a full header line
has been parsed with no slot left. The fuel argument only bounds the
recursion; one byte is consumed per iteration, so fuel exceeding the input
length never runs out. -/
def parseHeadersLoopF : Nat → List Nat → Nat → ParseStatus (List Header × List Nat)
  | 0, _, _ => .incomplete
  | _ + 1, [], _ => .incomplete
  | fuel + 1, b :: rest, slots =>
    if b = 13 then
      match parseCrLfTail rest with
      | .complete r2 => .complete ([], r2)
      | .incomplete => .incomplete
      | .err e => .err e
    else if b = 10 then .complete ([], rest)
    else if isHeaderNameChar b then
      match parseHeaderNameLoop rest with
      | .incomplete => .incomplete
      | .err e => .err e
      | .complete (nm, r1) =>
        match parseHeaderValue r1 with
        | .incomplete => .incomplete
        | .err e => .err e
        | .complete (v, r2) =>
          match slots with
          | 0 => .err .tooManyHeaders
          | slots' + 1 =>
            match parseHeadersLoopF fuel r2 slots' with
            | .complete (hs, rem) => .complete (⟨b :: nm, trimValue v⟩ :: hs, rem)
            | .incomplete => .incomplete
            | .err e => .err e
    else .err .headerName

/-- The request line of a parsed request (method, path, minor version). -/
structure RequestLine where
  method : List Nat
  path : List Nat
  version : Nat
deriving DecidableEq

/-- A parsed request: request line plus the header list, as built by
RequestHeaders in main.rs. -/
structure RequestHeaders where
  request_line : RequestLine
  headers : List Header
deriving DecidableEq

/-- Pop headers with an empty name off the back of the list, the while loop of
RequestHeaders::new in main.rs. -/
def popTrailingEmpty (hs : List Header) : List Header :=
  (hs.reverse.dropWhile (fun h => h.name.isEmpty)).reverse

/-- RequestHeaders::new from main.rs: drop the trailing unfilled header slots. -/
def RequestHeaders.new (rl : RequestLine) (hs : List Header) : RequestHeaders :=
  ⟨rl, popTrailingEmpty hs⟩

/-- Parse the request line and its terminating newline: leading empty lines,
method, target, version, line end. Returns the request line and the rest. -/
def parsePreamble (buf : List Nat) : ParseStatus (RequestLine × List Nat) :=
  match skipEmptyLines buf with
  | .incomplete => .incomplete
  | .err e => .err e
  | .complete l1 =>
    match parseToken l1 with
    | .incomplete => .incomplete
    | .err e => .err e
    | .complete (method, l2) =>
      match parseUri l2 with
      | .incomplete => .incomplete
      | .err e => .err e
      | .complete (path, l3) =>
        match parseVersion l3 with
        | .incomplete => .incomplete
        | .err e => .err e
        | .complete (v, l4) =>
          match parseNewline l4 with
          | .incomplete => .incomplete
          | .err e => .err e
          | .complete l5 => .complete (⟨method, path, v⟩, l5)

/-- One full parse attempt at a given header capacity, the behaviour of
httparse Request::parse on a buffer: on success it yields the number of bytes
up to and including the final empty line, the request line, and the headers
actually parsed, in order. -/
def parseRequestCore (buf : List Nat) (maxHeaders : Nat) :
    ParseStatus (Nat × RequestLine × List Header) :=
  match parsePreamble buf with
  | .incomplete => .incomplete
  | .err e => .err e
  | .complete (rl, rem) =>
    match parseHeadersLoopF (rem.length + 1) rem maxHeaders with
    | .incomplete => .incomplete
    | .err e => .err e
    | .complete (hs, rest) => .complete (buf.length - rest.length, rl, hs)

/-- Package one core parse outcome the way parse_http_request_headers does:
a complete parse fills a vector of maxHeaders slots (parsed headers first,
empty slots after) and hands it to RequestHeaders::new. -/
def parseHttpBase (buf : List Nat) (m : Nat) : Except HErr (Option (Nat × RequestHeaders)) :=
  match parseRequestCore buf m with
  | .complete (n, rl, hs) =>
    .ok (some (n, RequestHeaders.new rl (hs ++ List.replicate (m - hs.length) emptyHeader)))
  | .incomplete => .ok none
  | .err e => .error e

/-- The capacity-doubling recursion of parse_http_request_headers in main.rs,
bounded by fuel: on a too-many-headers error, retry the same buffer with the
capacity doubled. The fuel only bounds the recursion depth; the top-level
entry point supplies more fuel than the doubling can ever consume. -/
def parseHttpGrow : Nat → List Nat → Nat → Except HErr (Option (Nat × RequestHeaders))
  | 0, buf, m => parseHttpBase buf m
  | fuel + 1, buf, m =>
    if parseRequestCore buf m = .err .tooManyHeaders then parseHttpGrow fuel buf (m * 2)
    else parseHttpBase buf m

/-- parse_http_request_headers from main.rs: parse at the given capacity,
doubling the capacity on a too-many-headers error. -/
def parse_http_request_headers (buf : List Nat) (max_headers : Nat) :
    Except HErr (Option (Nat × RequestHeaders)) :=
  parseHttpGrow (buf.length + 1) buf max_headers

/-- ASCII lowercasing of one byte, as str::to_ascii_lowercase does per char. -/
def asciiLower (b : Nat) : Nat := if 65 ≤ b ∧ b ≤ 90 then b + 32 else b

/-- ASCII lowercasing of a header name. -/
def lowerName (l : List Nat) : List Nat := l.map asciiLower

/-- The bytes of the lowercase string host compared against in main.rs. -/
def hostBytes : List Nat := [104, 111, 115, 116]

/-- The body of the rewrite loop in handle_http: a header whose lowercased
name is host gets its value replaced by the configured hostname bytes. -/
def rewriteHeader (hostname : List Nat) (h : Header) : Header :=
  if lowerName h.name = hostBytes then ⟨h.name, hostname⟩ else h

/-- The rewrite pass of handle_http over the header list, also computing the
headers_changed flag: true exactly when some header matched host. -/
def rewriteLoop (hostname : List Nat) : List Header → List Header × Bool
  | [] => ([], false)
  | h :: t =>
    let r := rewriteLoop hostname t
    if lowerName h.name = hostBytes then (⟨h.name, hostname⟩ :: r.1, true)
    else (h :: r.1, r.2)

/-- Decimal ASCII digits of a byte-sized natural, as the Display of a u8
prints it (values below 1000 suffice for the u8 version field). -/
def natDigits (n : Nat) : List Nat :=
  if n < 10 then [48 + n]
  else if n < 100 then [48 + n / 10, 48 + n % 10]
  else [48 + n / 100, 48 + n / 10 % 10, 48 + n % 10]

/-- Serialization of the request line written by handle_http:
method, space, path, space, HTTP/1. and the version digits, then CRLF. -/
def serializeRequestLine (rl : RequestLine) : List Nat :=
  rl.method ++ [32] ++ rl.path ++ [32] ++ versionLead ++ natDigits rl.version ++ [13, 10]

/-- Serialization of one header written by handle_http: name, colon, space,
value, CRLF. -/
def serializeHeader (h : Header) : List Nat :=
  h.name ++ [58, 32] ++ h.value ++ [13, 10]

/-- Serialization of the header list, in order. -/
def serializeHeaders (hs : List Header) : List Nat :=
  (hs.map serializeHeader).flatten

/-- The full reserialized header block written by handle_http when a header
was rewritten: request line, headers, terminating empty line. -/
def serializeRequest (rh : RequestHeaders) : List Nat :=
  serializeRequestLine rh.request_line ++ serializeHeaders rh.headers ++ [13, 10]

/-- Result of the accumulation loop of handle_http over a list of reads. -/
inductive HttpPhaseResult
  /-- All reads consumed and the header block is still incomplete: the loop
  would issue another read. -/
  | ioPending
  /-- The parser reported an error: the whole accumulated buffer was written
  to the server transport and handle_http returned without error. -/
  | parseFailed (forwarded : List Nat)
  /-- A complete header block: the accumulated buffer, the byte offset of the
  end of the header block, and the parsed request. -/
  | parsed (buf : List Nat) (n : Nat) (rh : RequestHeaders)
deriving DecidableEq

/-- The accumulation loop of handle_http: append each read chunk to the
buffer and re-parse with initial capacity 16 until the parse completes or
errors. A read of n bytes (possibly zero) is modelled by its chunk of bytes;
the loop itself never inspects the chunk length, exactly as in main.rs. -/
def handleHttpLoop : List Nat → List (List Nat) → HttpPhaseResult
  | _, [] => .ioPending
  | buf, chunk :: rest =>
    match parse_http_request_headers (buf ++ chunk) 16 with
    | .error _ => .parseFailed (buf ++ chunk)
    | .ok (some (n, rh)) => .parsed (buf ++ chunk) n rh
    | .ok none => handleHttpLoop (buf ++ chunk) rest

/-- The bytes handle_http writes to the server transport after a complete
parse: if any header changed, the reserialized block followed by the buffer
past the header boundary; otherwise the original buffer unmodified. -/
def handleHttpOutput (hostname buf : List Nat) (n : Nat) (rh : RequestHeaders) : List Nat :=
  let r := rewriteLoop hostname rh.headers
  if r.2 then serializeRequest ⟨rh.request_line, r.1⟩ ++ buf.drop n else buf

/-- Overall result of handle_http on a list of reads. -/
inductive HandleHttpResult
  /-- The reads were exhausted with the header block still incomplete. -/
  | pending
  /-- handle_http returned, having written these bytes to the server. -/
  | done (forwarded : List Nat)
deriving DecidableEq

/-- handle_http from main.rs, as a function from the configured hostname and
the chunks read from the client to the bytes forwarded to the server. -/
def handle_http (hostname : List Nat) (chunks : List (List Nat)) : HandleHttpResult :=
  match handleHttpLoop [] chunks with
  | .ioPending => .pending
  | .parseFailed out => .done out
  | .parsed buf n rh => .done (handleHttpOutput hostname buf n rh)

/-- Direction of a relay-loop read: from the accepted client side or from the
upstream side. -/
inductive Dir
  | incoming
  | outgoing
deriving DecidableEq

/-- One serviced readiness event of the relay loop: which side was read and
the bytes obtained; an empty chunk models a zero-byte read (end of stream). -/
structure RelayEvent where
  dir : Dir
  data : List Nat
deriving DecidableEq

/-- The relay loop of handle_client: each serviced event writes the bytes
read to the opposite transport (a zero-byte read still issues its empty
write_all) and a zero-byte read then breaks the loop. Returns the writes
performed, tagged with the direction they were read from, and the list of
events actually consumed. -/
def relayLoop : List RelayEvent → List (Dir × List Nat) × List RelayEvent
  | [] => ([], [])
  | e :: rest =>
    if e.data = [] then ([(e.dir, e.data)], [e])
    else
      let r := relayLoop rest
      ((e.dir, e.data) :: r.1, e :: r.2)

/-- The command-line options of main.rs (struct Opt). -/
structure Opt where
  hostname : List Nat
  ssl : Bool
  ssl_server : Bool
  listen_port : Nat
  host_port : Option Nat
  show_data : Bool
  rewrite_host_header : Bool

/-- Opt::host_port from main.rs: the explicit option if given, otherwise 443
when TLS to the upstream is enabled and 80 when it is not. -/
def Opt.host_port' (o : Opt) : Nat :=
  o.host_port.getD (if o.ssl then 443 else 80)

deriving instance DecidableEq for Except

/-- The ten bytes of GET / HTTP, an incomplete request prefix. -/
def truncatedBuf : List Nat := [71, 69, 84, 32, 47, 32, 72, 84, 84, 80]

/-- The bytes of A / HTTP/1.1 then the line Bad Header: a header block whose
second line has a space inside the header name, a structural parse error. -/
def malformedBuf : List Nat :=
  [65, 32, 47, 32, 72, 84, 84, 80, 47, 49, 46, 49, 13, 10,
   66, 97, 100, 32, 72, 101, 97, 100, 101, 114, 13, 10, 13, 10]

/-- The bytes of example.com. -/
def exampleHost : List Nat := [101, 120, 97, 109, 112, 108, 101, 46, 99, 111, 109]

/-- GET / HTTP/1.1 with a Host header that lacks the space after the colon
and already carries the hostname example.com. -/
def noSpaceHostBuf : List Nat :=
  [71, 69, 84, 32, 47, 32, 72, 84, 84, 80, 47, 49, 46, 49, 13, 10,
   72, 111, 115, 116, 58] ++ exampleHost ++ [13, 10, 13, 10]

/-- The same request in canonical serialized form, with the space after the
colon. -/
def canonicalHostBuf : List Nat :=
  [71, 69, 84, 32, 47, 32, 72, 84, 84, 80, 47, 49, 46, 49, 13, 10,
   72, 111, 115, 116, 58, 32] ++ exampleHost ++ [13, 10, 13, 10]

/-- The parsed request shared by noSpaceHostBuf and canonicalHostBuf:
GET / HTTP/1.1 with the single header Host: example.com. -/
def hostParsedReq : RequestHeaders :=
  ⟨⟨[71, 69, 84], [47], 1⟩, [⟨[72, 111, 115, 116], exampleHost⟩]⟩

/-- GET / HTTP/1.1 with one Accept header and four body bytes, no Host. -/
def acceptBuf : List Nat :=
  [71, 69, 84, 32, 47, 32, 72, 84, 84, 80, 47, 49, 46, 49, 13, 10,
   65, 99, 99, 101, 112, 116, 58, 32, 120, 13, 10, 13, 10, 66, 79, 68, 89]

/-- The parsed request of acceptBuf. -/
def acceptParsed : RequestHeaders :=
  ⟨⟨[71, 69, 84], [47], 1⟩, [⟨[65, 99, 99, 101, 112, 116], [120]⟩]⟩

/-- The block handle_http writes for canonicalHostBuf when the configured
hostname is bb: GET / HTTP/1.1 with Host: bb. -/
def rewrittenOut : List Nat :=
  [71, 69, 84, 32, 47, 32, 72, 84, 84, 80, 47, 49, 46, 49, 13, 10,
   72, 111, 115, 116, 58, 32, 98, 98, 13, 10, 13, 10]

/-- GET / HTTP/1.1 followed by seventeen copies of the header line H: v and
the terminating empty line: a complete request with more than 16 headers. -/
def manyHeadersBuf : List Nat :=
  [71, 69, 84, 32, 47, 32, 72, 84, 84, 80, 47, 49, 46, 49, 13, 10] ++
  (List.replicate 17 [72, 58, 32, 118, 13, 10]).flatten ++ [13, 10]

/-- The seventeen parsed headers of manyHeadersBuf. -/
def manyHeadersList : List Header := List.replicate 17 ⟨[72], [118]⟩

/-! Helper lemmas about the rewrite pass. -/

theorem rewriteLoop_fst (hostname : List Nat) (hs : List Header) :
    (rewriteLoop hostname hs).1 = hs.map (rewriteHeader hostname) := by
  induction hs with
  | nil => rfl
  | cons h t ih =>
    simp only [rewriteLoop, List.map_cons, rewriteHeader]
    split <;> simp [ih]

theorem rewriteLoop_snd (hostname : List Nat) (hs : List Header) :
    (rewriteLoop hostname hs).2 = true ↔ ∃ h ∈ hs, lowerName h.name = hostBytes := by
  induction hs with
  | nil => simp [rewriteLoop]
  | cons h t ih =>
    simp only [rewriteLoop]
    split
    · simp_all
    · simpa [*] using ih

theorem rewriteLoop_id (hostname : List Nat) (hs : List Header)
    (hv : ∀ h ∈ hs, lowerName h.name = hostBytes → h.value = hostname) :
    (rewriteLoop hostname hs).1 = hs := by
  rw [rewriteLoop_fst]
  induction hs with
  | nil => rfl
  | cons h t ih =>
    have hh : rewriteHeader hostname h = h := by
      unfold rewriteHeader
      split
      · rw [← hv h (by simp) (by assumption)]
      · rfl
    simp only [List.map_cons, hh]
    rw [ih (fun x hx hm => hv x (by simp [hx]) hm)]

/-- C3: a structural parse error makes the interception loop forward the whole
accumulated buffer unmodified and return without raising an error. -/
theorem c3_fail_open (buf chunk : List Nat) (rest : List (List Nat)) (e : HErr)
    (h : parse_http_request_headers (buf ++ chunk) 16 = .error e) :
    handleHttpLoop buf (chunk :: rest) = .parseFailed (buf ++ chunk) := by
  simp only [handleHttpLoop, h]

theorem c3_witness : handleHttpLoop [] [malformedBuf] = .parseFailed malformedBuf :=
  c3_fail_open [] malformedBuf [] HErr.headerName (by decide)

/-- C1: the interception loop makes no progress on a zero-byte read: with the
header block still incomplete, a zero-byte read leaves the loop exactly where
it was, and a whole sequence of zero-byte reads is consumed without the loop
ever failing or forwarding anything, so the code spins instead of raising the
truncation error the specification requires. -/
theorem c1_zero_read (buf : List Nat) (rest : List (List Nat)) (k : Nat)
    (h : parse_http_request_headers buf 16 = .ok none) :
    handleHttpLoop buf ([] :: rest) = handleHttpLoop buf rest ∧
    handleHttpLoop buf (List.replicate k []) = .ioPending := by
  refine ⟨by simp only [handleHttpLoop, List.append_nil, h], ?_⟩
  induction k with
  | zero => rfl
  | succ k ih =>
    simp only [List.replicate_succ, handleHttpLoop, List.append_nil, h]
    exact ih

theorem c1_witness :
    handleHttpLoop truncatedBuf [[]] = handleHttpLoop truncatedBuf [] ∧
    handleHttpLoop truncatedBuf (List.replicate 3 []) = .ioPending :=
  c1_zero_read truncatedBuf [] 3 (by decide)

/-- C5: a successfully parsed request with no header named host, compared
case-insensitively, is forwarded as the original accumulated buffer,
including bytes past the header boundary. -/
theorem c5_no_host_passthrough (hostname buf : List Nat) (n : Nat) (rh : RequestHeaders)
    (hp : parse_http_request_headers buf 16 = .ok (some (n, rh)))
    (hno : ∀ h ∈ rh.headers, lowerName h.name ≠ hostBytes) :
    handleHttpOutput hostname buf n rh = buf := by
  have hf : (rewriteLoop hostname rh.headers).2 = false := by
    cases hsnd : (rewriteLoop hostname rh.headers).2
    · rfl
    · obtain ⟨h, hm, hh⟩ := (rewriteLoop_snd hostname rh.headers).1 hsnd
      exact absurd hh (hno h hm)
  simp [handleHttpOutput, hf]

theorem c5_witness : handleHttpOutput exampleHost acceptBuf 29 acceptParsed = acceptBuf :=
  c5_no_host_passthrough exampleHost acceptBuf 29 acceptParsed (by decide) (by decide)

/-- C6: the rewrite pass preserves the number and order of headers, replaces
the value of every header whose name lowercases to host with the configured
hostname while keeping its name, and leaves every other header untouched. -/
theorem c6_host_case_insensitive (hostname : List Nat) (hs : List Header) :
    (rewriteLoop hostname hs).1.length = hs.length ∧
    ∀ i (h1 : i < (rewriteLoop hostname hs).1.length) (h2 : i < hs.length),
      (rewriteLoop hostname hs).1.get ⟨i, h1⟩ =
        if lowerName (hs.get ⟨i, h2⟩).name = hostBytes
        then ⟨(hs.get ⟨i, h2⟩).name, hostname⟩ else hs.get ⟨i, h2⟩ := by
  refine ⟨by simp [rewriteLoop_fst], ?_⟩
  intro i h1 h2
  simp [rewriteLoop_fst, rewriteHeader]

theorem c6_witness :
    (rewriteLoop [98, 98] hostParsedReq.headers).1.get ⟨0, by decide⟩ =
      (⟨[72, 111, 115, 116], [98, 98]⟩ : Header) :=
  ((c6_host_case_insensitive [98, 98] hostParsedReq.headers).2 0 (by decide)
    (by decide)).trans (by decide)

/-- C2 counterexample: for the request whose Host value already equals the
configured hostname but whose Host line has no space after the colon, the
interceptor reserializes, so the forwarded bytes differ from the original
buffer even though the claim promises byte-identical output. -/
theorem c2_counterexample :
    parse_http_request_headers noSpaceHostBuf 16 = .ok (some (36, hostParsedReq)) ∧
    (∀ h ∈ hostParsedReq.headers, lowerName h.name = hostBytes → h.value = exampleHost) ∧
    (∃ h ∈ hostParsedReq.headers, lowerName h.name = hostBytes) ∧
    handle_http exampleHost [noSpaceHostBuf] ≠ .done noSpaceHostBuf := by decide

/-- C2 amended: when every Host header already carries the configured
hostname, the rewrite changes no header, and the forwarded output is
byte-identical to the original buffer whenever the original header block is
in canonical serialized form, that is, its first header-size bytes coincide
with the deterministic reserialization of the parsed request. -/
theorem c2_idempotent_on_canonical (hostname buf : List Nat) (n : Nat) (rh : RequestHeaders)
    (hp : parse_http_request_headers buf 16 = .ok (some (n, rh)))
    (hhost : ∀ h ∈ rh.headers, lowerName h.name = hostBytes → h.value = hostname)
    (hcanon : buf.take n = serializeRequest rh) :
    handleHttpOutput hostname buf n rh = buf := by
  have hid : (rewriteLoop hostname rh.headers).1 = rh.headers := rewriteLoop_id _ _ hhost
  have heta : (⟨rh.request_line, rh.headers⟩ : RequestHeaders) = rh := rfl
  simp only [handleHttpOutput]
  split
  · rw [hid, heta, ← hcanon]
    exact List.take_append_drop n buf
  · rfl

theorem c2_witness :
    handleHttpOutput exampleHost canonicalHostBuf 37 hostParsedReq = canonicalHostBuf :=
  c2_idempotent_on_canonical exampleHost canonicalHostBuf 37 hostParsedReq
    (by decide) (by decide) (by decide)

/-- C4: when at least one header matched host, the forwarded bytes are the
method, a space, the path, a space, the literal HTTP/1. and the decimal minor
version, CRLF, then every header in original order as name, colon, space,
value (the configured hostname for matched headers, the parsed value for all
others), CRLF, then one empty CRLF line, then the bytes of the buffer past
the header boundary. -/
theorem c4_rewritten_serialization (hostname buf : List Nat) (n : Nat) (rh : RequestHeaders)
    (hc : ∃ h ∈ rh.headers, lowerName h.name = hostBytes) :
    handleHttpOutput hostname buf n rh =
      rh.request_line.method ++ [32] ++ rh.request_line.path ++ [32] ++
      [72, 84, 84, 80, 47, 49, 46] ++ natDigits rh.request_line.version ++ [13, 10] ++
      (rh.headers.map (fun h =>
        (rewriteHeader hostname h).name ++ [58, 32] ++ (rewriteHeader hostname h).value
          ++ [13, 10])).flatten ++
      ([13, 10] ++ buf.drop n) := by
  have hch : (rewriteLoop hostname rh.headers).2 = true :=
    (rewriteLoop_snd hostname rh.headers).2 hc
  have hfun : (serializeHeader ∘ rewriteHeader hostname) = (fun h : Header =>
      (rewriteHeader hostname h).name ++ [58, 32] ++ (rewriteHeader hostname h).value
        ++ [13, 10]) := rfl
  simp only [handleHttpOutput, hch, if_true, rewriteLoop_fst]
  simp only [serializeRequest, serializeRequestLine, serializeHeaders, List.map_map, hfun,
    versionLead]
  simp [List.append_assoc]

theorem c4_witness :
    handleHttpOutput [98, 98] canonicalHostBuf 37 hostParsedReq = rewrittenOut :=
  (c4_rewritten_serialization [98, 98] canonicalHostBuf 37 hostParsedReq
    (by decide)).trans (by decide)

/-- C8: once the relay loop services a zero-byte read, it stops: the events
consumed are exactly those before the zero-byte read plus that read itself,
every event after it is never read, and the only write at or after the
zero-byte read is its empty write. -/
theorem c8_relay_terminates (before : List RelayEvent) (e0 : RelayEvent)
    (after : List RelayEvent) (h0 : e0.data = [])
    (hb : ∀ e ∈ before, e.data ≠ []) :
    relayLoop (before ++ e0 :: after) =
      (before.map (fun e => (e.dir, e.data)) ++ [(e0.dir, e0.data)], before ++ [e0]) := by
  induction before with
  | nil => simp [relayLoop, h0]
  | cons e t ih =>
    have he : e.data ≠ [] := hb e (by simp)
    have ih' := ih (fun x hx => hb x (by simp [hx]))
    simp only [List.cons_append, relayLoop, if_neg he, List.map_cons, List.append_eq, ih']

theorem c8_witness :
    relayLoop [⟨.incoming, [1, 2]⟩, ⟨.outgoing, []⟩, ⟨.incoming, [3]⟩] =
      ([(.incoming, [1, 2]), (.outgoing, [])],
       [⟨.incoming, [1, 2]⟩, ⟨.outgoing, []⟩]) :=
  (c8_relay_terminates [⟨.incoming, [1, 2]⟩] ⟨.outgoing, []⟩ [⟨.incoming, [3]⟩]
    (by decide) (by decide)).trans (by decide)

/-- C9: the effective upstream port is the explicit option when given, and
otherwise 443 with TLS to the upstream enabled and 80 without it. -/
theorem c9_host_port (o : Opt) :
    (∀ p, o.host_port = some p → o.host_port' = p) ∧
    (o.host_port = none → o.host_port' = if o.ssl then 443 else 80) := by
  constructor
  · intro p hp
    simp [Opt.host_port', hp]
  · intro hp
    simp [Opt.host_port', hp]

theorem c9_witness :
    (Opt.mk [] true false 7777 none false true).host_port' = 443 ∧
    (Opt.mk [] false false 7777 (some 8443) false true).host_port' = 8443 :=
  ⟨((c9_host_port (Opt.mk [] true false 7777 none false true)).2 rfl).trans (by decide),
   (c9_host_port (Opt.mk [] false false 7777 (some 8443) false true)).1 8443 rfl⟩

/-! Length and error-kind facts about the individual parser stages, used for
the capacity-growth arguments. -/

theorem skipEmptyLines_le (l : List Nat) :
    ∀ l', skipEmptyLines l = .complete l' → l'.length ≤ l.length := by
  induction l using skipEmptyLines.induct with
  | case1 => intro l' h; cases h
  | case2 => intro l' h; simp [skipEmptyLines] at h
  | case3 r2 ih =>
    intro l' h
    simp only [skipEmptyLines] at h
    have := ih l' (by simpa using h)
    simp
    omega
  | case4 b2 r2 hb2 =>
    intro l' h
    simp [skipEmptyLines, hb2] at h
  | case5 r2 hne ih =>
    intro l' h
    rw [skipEmptyLines.eq_def] at h
    simp at h
    have := ih l' h
    simp only [List.length_cons]
    omega
  | case6 b r hb13 hb10 =>
    intro l' h
    rw [skipEmptyLines.eq_def] at h
    simp [hb13, hb10] at h
    subst h
    exact Nat.le_refl _

theorem skipEmptyLines_err (l : List Nat) :
    ∀ e, skipEmptyLines l = .err e → e = .newLine := by
  induction l using skipEmptyLines.induct with
  | case1 => intro e h; cases h
  | case2 => intro e h; simp [skipEmptyLines] at h
  | case3 r2 ih =>
    intro e h
    simp only [skipEmptyLines] at h
    exact ih e (by simpa using h)
  | case4 b2 r2 hb2 =>
    intro e h
    simp [skipEmptyLines, hb2] at h
    simp [h]
  | case5 r2 hne ih =>
    intro e h
    rw [skipEmptyLines.eq_def] at h
    simp at h
    exact ih e h
  | case6 b r hb13 hb10 =>
    intro e h
    rw [skipEmptyLines.eq_def] at h
    simp [hb13, hb10] at h

theorem parseTokenLoop_le (l : List Nat) :
    ∀ t r, parseTokenLoop l = .complete (t, r) → r.length < l.length := by
  induction l with
  | nil => intro t r h; cases h
  | cons b rest ih =>
    intro t r h
    simp only [parseTokenLoop] at h
    split at h
    · cases h; simp
    · split at h
      · cases hrec : parseTokenLoop rest with
        | complete p =>
          rw [hrec] at h
          cases h
          have := ih p.1 p.2 (by rw [hrec])
          simp
          omega
        | incomplete => rw [hrec] at h; cases h
        | err e => rw [hrec] at h; cases h
      · cases h

theorem parseTokenLoop_err (l : List Nat) :
    ∀ e, parseTokenLoop l = .err e → e = .token := by
  induction l with
  | nil => intro e h; cases h
  | cons b rest ih =>
    intro e h
    simp only [parseTokenLoop] at h
    split at h
    · cases h
    · split at h
      · cases hrec : parseTokenLoop rest with
        | complete p => rw [hrec] at h; cases h
        | incomplete => rw [hrec] at h; cases h
        | err e2 =>
          rw [hrec] at h
          cases h
          exact ih e (by rw [hrec])
      · cases h; rfl

theorem parseToken_le (l : List Nat) :
    ∀ t r, parseToken l = .complete (t, r) → r.length < l.length := by
  intro t r h
  cases l with
  | nil => cases h
  | cons b rest =>
    simp only [parseToken] at h
    split at h
    · cases hrec : parseTokenLoop rest with
      | complete p =>
        rw [hrec] at h
        cases h
        have := parseTokenLoop_le rest p.1 p.2 hrec
        simp
        omega
      | incomplete => rw [hrec] at h; cases h
      | err e => rw [hrec] at h; cases h
    · cases h

theorem parseToken_err (l : List Nat) :
    ∀ e, parseToken l = .err e → e = .token := by
  intro e h
  cases l with
  | nil => cases h
  | cons b rest =>
    simp only [parseToken] at h
    split at h
    · cases hrec : parseTokenLoop rest with
      | complete p => rw [hrec] at h; cases h
      | incomplete => rw [hrec] at h; cases h
      | err e2 =>
        rw [hrec] at h
        cases h
        exact parseTokenLoop_err rest e (by rw [hrec])
    · cases h; rfl

theorem parseUriLoop_le (l : List Nat) :
    ∀ t r, parseUriLoop l = .complete (t, r) → r.length < l.length := by
  induction l with
  | nil => intro t r h; cases h
  | cons b rest ih =>
    intro t r h
    simp only [parseUriLoop] at h
    split at h
    · cases h; simp
    · split at h
      · cases hrec : parseUriLoop rest with
        | complete p =>
          rw [hrec] at h
          cases h
          have := ih p.1 p.2 (by rw [hrec])
          simp
          omega
        | incomplete => rw [hrec] at h; cases h
        | err e => rw [hrec] at h; cases h
      · cases h

theorem parseUriLoop_err (l : List Nat) :
    ∀ e, parseUriLoop l = .err e → e = .token := by
  induction l with
  | nil => intro e h; cases h
  | cons b rest ih =>
    intro e h
    simp only [parseUriLoop] at h
    split at h
    · cases h
    · split at h
      · cases hrec : parseUriLoop rest with
        | complete p => rw [hrec] at h; cases h
        | incomplete => rw [hrec] at h; cases h
        | err e2 =>
          rw [hrec] at h
          cases h
          exact ih e (by rw [hrec])
      · cases h; rfl

theorem parseUri_le (l : List Nat) :
    ∀ t r, parseUri l = .complete (t, r) → r.length < l.length := by
  intro t r h
  cases l with
  | nil => cases h
  | cons b rest =>
    simp only [parseUri] at h
    split at h
    · cases hrec : parseUriLoop rest with
      | complete p =>
        rw [hrec] at h
        cases h
        have := parseUriLoop_le rest p.1 p.2 hrec
        simp
        omega
      | incomplete => rw [hrec] at h; cases h
      | err e => rw [hrec] at h; cases h
    · cases h

theorem parseUri_err (l : List Nat) :
    ∀ e, parseUri l = .err e → e = .token := by
  intro e h
  cases l with
  | nil => cases h
  | cons b rest =>
    simp only [parseUri] at h
    split at h
    · cases hrec : parseUriLoop rest with
      | complete p => rw [hrec] at h; cases h
      | incomplete => rw [hrec] at h; cases h
      | err e2 =>
        rw [hrec] at h
        cases h
        exact parseUriLoop_err rest e (by rw [hrec])
    · cases h; rfl

theorem parseVersion_le (l : List Nat) :
    ∀ v r, parseVersion l = .complete (v, r) → r.length ≤ l.length := by
  intro v r h
  simp only [parseVersion] at h
  split at h
  · split at h
    · split at h
      · cases h; simp
      · split at h
        · cases h; simp
        · cases h
    · cases h
  · split at h
    · cases h
    · cases h

theorem parseVersion_err (l : List Nat) :
    ∀ e, parseVersion l = .err e → e = .version := by
  intro e h
  simp only [parseVersion] at h
  split at h
  · split at h
    · split at h
      · cases h
      · split at h
        · cases h
        · cases h; rfl
    · cases h; rfl
  · split at h
    · cases h
    · cases h; rfl

theorem parseNewline_le (l : List Nat) :
    ∀ r, parseNewline l = .complete r → r.length ≤ l.length := by
  intro r h
  cases l with
  | nil => cases h
  | cons b rest =>
    by_cases hb13 : b = 13
    · subst hb13
      cases rest with
      | nil => simp [parseNewline] at h
      | cons b2 r2 =>
        simp [parseNewline] at h
        split at h
        · cases h
          simp only [List.length_cons]
          omega
        · cases h
    · by_cases hb10 : b = 10
      · subst hb10
        simp [parseNewline, hb13] at h
        subst h
        simp only [List.length_cons]
        omega
      · simp [parseNewline, hb13, hb10] at h

theorem parseNewline_err (l : List Nat) :
    ∀ e, parseNewline l = .err e → e = .newLine := by
  intro e h
  cases l with
  | nil => cases h
  | cons b rest =>
    by_cases hb13 : b = 13
    · subst hb13
      cases rest with
      | nil => simp [parseNewline] at h
      | cons b2 r2 =>
        simp [parseNewline] at h
        split at h
        · cases h
        · cases h
          rfl
    · by_cases hb10 : b = 10
      · subst hb10
        simp [parseNewline, hb13] at h
      · simp [parseNewline, hb13, hb10] at h
        simp [h]

theorem parseHeaderNameLoop_lt (l : List Nat) :
    ∀ nm r, parseHeaderNameLoop l = .complete (nm, r) → r.length < l.length := by
  induction l with
  | nil => intro nm r h; cases h
  | cons b rest ih =>
    intro nm r h
    simp only [parseHeaderNameLoop] at h
    split at h
    · cases h; simp
    · split at h
      · cases hrec : parseHeaderNameLoop rest with
        | complete p =>
          rw [hrec] at h
          cases h
          have := ih p.1 p.2 (by rw [hrec])
          simp
          omega
        | incomplete => rw [hrec] at h; cases h
        | err e => rw [hrec] at h; cases h
      · cases h

theorem parseHeaderNameLoop_err (l : List Nat) :
    ∀ e, parseHeaderNameLoop l = .err e → e = .headerName := by
  induction l with
  | nil => intro e h; cases h
  | cons b rest ih =>
    intro e h
    simp only [parseHeaderNameLoop] at h
    split at h
    · cases h
    · split at h
      · cases hrec : parseHeaderNameLoop rest with
        | complete p => rw [hrec] at h; cases h
        | incomplete => rw [hrec] at h; cases h
        | err e2 =>
          rw [hrec] at h
          cases h
          exact ih e (by rw [hrec])
      · cases h; rfl

theorem skipValueWhitespace_le (l : List Nat) :
    ∀ r, skipValueWhitespace l = .complete r → r.length ≤ l.length := by
  induction l with
  | nil => intro r h; cases h
  | cons b rest ih =>
    intro r h
    simp only [skipValueWhitespace] at h
    split at h
    · have := ih r h
      simp
      omega
    · cases h
      exact Nat.le_refl _

theorem skipValueWhitespace_err (l : List Nat) :
    ∀ e, skipValueWhitespace l = .err e → False := by
  induction l with
  | nil => intro e h; cases h
  | cons b rest ih =>
    intro e h
    simp only [skipValueWhitespace] at h
    split at h
    · exact ih e h
    · cases h

theorem parseValueLoop_lt (l : List Nat) :
    ∀ v r, parseValueLoop l = .complete (v, r) → r.length < l.length := by
  induction l with
  | nil => intro v r h; cases h
  | cons b rest ih =>
    intro v r h
    by_cases hb13 : b = 13
    · subst hb13
      cases rest with
      | nil => simp [parseValueLoop] at h
      | cons b2 r2 =>
        simp [parseValueLoop] at h
        split at h
        · cases h
          simp only [List.length_cons]
          omega
        · cases h
    · by_cases hb10 : b = 10
      · subst hb10
        simp [parseValueLoop, hb13] at h
        obtain ⟨hv, hr⟩ := h
        subst hr
        simp only [List.length_cons]
        omega
      · simp only [parseValueLoop, if_neg hb13, if_neg hb10] at h
        split at h
        · cases hrec : parseValueLoop rest with
          | complete p =>
            rw [hrec] at h
            cases h
            have := ih p.1 p.2 (by rw [hrec])
            simp only [List.length_cons]
            omega
          | incomplete => rw [hrec] at h; cases h
          | err e => rw [hrec] at h; cases h
        · cases h

theorem parseValueLoop_err (l : List Nat) :
    ∀ e, parseValueLoop l = .err e → e = .headerValue := by
  induction l with
  | nil => intro e h; cases h
  | cons b rest ih =>
    intro e h
    by_cases hb13 : b = 13
    · subst hb13
      cases rest with
      | nil => simp [parseValueLoop] at h
      | cons b2 r2 =>
        simp [parseValueLoop] at h
        split at h
        · cases h
        · cases h
          rfl
    · by_cases hb10 : b = 10
      · subst hb10
        simp [parseValueLoop, hb13] at h
      · simp only [parseValueLoop, if_neg hb13, if_neg hb10] at h
        split at h
        · cases hrec : parseValueLoop rest with
          | complete p => rw [hrec] at h; cases h
          | incomplete => rw [hrec] at h; cases h
          | err e2 =>
            rw [hrec] at h
            cases h
            exact ih e (by rw [hrec])
        · cases h
          rfl

theorem parseHeaderValue_lt (l : List Nat) :
    ∀ v r, parseHeaderValue l = .complete (v, r) → r.length < l.length := by
  intro v r h
  simp only [parseHeaderValue] at h
  cases hskip : skipValueWhitespace l with
  | complete r1 =>
    rw [hskip] at h
    have h1 := skipValueWhitespace_le l r1 hskip
    have h2 := parseValueLoop_lt r1 v r h
    omega
  | incomplete => rw [hskip] at h; cases h
  | err e => rw [hskip] at h; cases h

theorem parseHeaderValue_err (l : List Nat) :
    ∀ e, parseHeaderValue l = .err e → e = .headerValue := by
  intro e h
  simp only [parseHeaderValue] at h
  cases hskip : skipValueWhitespace l with
  | complete r1 =>
    rw [hskip] at h
    exact parseValueLoop_err r1 e h
  | incomplete => rw [hskip] at h; cases h
  | err e2 =>
    exact absurd hskip (by intro hc; exact skipValueWhitespace_err l e2 hc)

theorem parseCrLfTail_lt (l : List Nat) :
    ∀ r, parseCrLfTail l = .complete r → r.length < l.length := by
  intro r h
  cases l with
  | nil => cases h
  | cons b2 r2 =>
    simp only [parseCrLfTail] at h
    split at h
    · cases h
      simp
    · cases h

theorem parseCrLfTail_err (l : List Nat) :
    ∀ e, parseCrLfTail l = .err e → e = .newLine := by
  intro e h
  cases l with
  | nil => cases h
  | cons b2 r2 =>
    simp only [parseCrLfTail] at h
    split at h
    · cases h
    · cases h
      rfl

/-- Combined facts about a completed header-section parse: every stored name
is nonempty, the header count is bounded by the capacity and by the input
length, the same result is produced at any capacity at least the count, and
any smaller capacity produces the too-many-headers error. -/
theorem parseHeadersLoopF_complete :
    ∀ fuel (l : List Nat) (slots : Nat) (hs : List Header) (r : List Nat),
      parseHeadersLoopF fuel l slots = .complete (hs, r) →
      (∀ h ∈ hs, h.name ≠ []) ∧ hs.length ≤ slots ∧ hs.length ≤ l.length ∧
      (∀ slots', hs.length ≤ slots' → parseHeadersLoopF fuel l slots' = .complete (hs, r)) ∧
      (∀ slots', slots' < hs.length → parseHeadersLoopF fuel l slots' = .err .tooManyHeaders) := by
  intro fuel
  induction fuel with
  | zero => intro l slots hs r h; cases h
  | succ fuel ih =>
    intro l slots hs r h
    cases l with
    | nil => cases h
    | cons b rest =>
      simp only [parseHeadersLoopF] at h
      by_cases hb13 : b = 13
      · rw [if_pos hb13] at h
        cases hcr : parseCrLfTail rest with
        | complete r2 =>
          rw [hcr] at h
          cases h
          refine ⟨by simp, by simp, by simp, ?_, ?_⟩
          · intro slots' _
            simp [parseHeadersLoopF, hb13, hcr]
          · intro slots' hlt
            simp at hlt
        | incomplete => rw [hcr] at h; cases h
        | err e => rw [hcr] at h; cases h
      · rw [if_neg hb13] at h
        by_cases hb10 : b = 10
        · rw [if_pos hb10] at h
          cases h
          refine ⟨by simp, by simp, by simp, ?_, ?_⟩
          · intro slots' _
            simp [parseHeadersLoopF, hb13, hb10]
          · intro slots' hlt
            simp at hlt
        · rw [if_neg hb10] at h
          by_cases hname : isHeaderNameChar b
          · rw [if_pos hname] at h
            split at h
            next => cases h
            next => cases h
            next nm r1 hnm =>
              split at h
              next => cases h
              next => cases h
              next v r2 hval =>
                split at h
                next => cases h
                next slots0 =>
                  split at h
                  next hs0 rem hrec =>
                    cases h
                    obtain ⟨hn0, hc0, hl0, hm0, ht0⟩ := ih r2 slots0 hs0 r hrec
                    have hr1 : r1.length < rest.length := parseHeaderNameLoop_lt rest nm r1 hnm
                    have hr2 : r2.length < r1.length := parseHeaderValue_lt r1 v r2 hval
                    refine ⟨?_, ?_, ?_, ?_, ?_⟩
                    · intro x hx
                      rcases List.mem_cons.1 hx with rfl | hx
                      · simp
                      · exact hn0 x hx
                    · simp only [List.length_cons]
                      omega
                    · simp only [List.length_cons]
                      omega
                    · intro slots' hsl
                      cases slots' with
                      | zero => simp at hsl
                      | succ s =>
                        have hle : hs0.length ≤ s := by
                          simp only [List.length_cons] at hsl
                          omega
                        simp only [parseHeadersLoopF, if_neg hb13, if_neg hb10, if_pos hname,
                          hnm, hval, hm0 s hle]
                    · intro slots' hlt
                      cases slots' with
                      | zero =>
                        simp only [parseHeadersLoopF, if_neg hb13, if_neg hb10, if_pos hname,
                          hnm, hval]
                      | succ s =>
                        have hlt0 : s < hs0.length := by
                          simp only [List.length_cons] at hlt
                          omega
                        simp only [parseHeadersLoopF, if_neg hb13, if_neg hb10, if_pos hname,
                          hnm, hval, ht0 s hlt0]
                  next => cases h
                  next => cases h
          · rw [if_neg hname] at h
            cases h

/-- A too-many-headers error from the header-section loop needs more full
header lines than the capacity, so the capacity is below the input length. -/
theorem parseHeadersLoopF_tooMany :
    ∀ fuel (l : List Nat) (slots : Nat),
      parseHeadersLoopF fuel l slots = .err .tooManyHeaders → slots < l.length := by
  intro fuel
  induction fuel with
  | zero => intro l slots h; cases h
  | succ fuel ih =>
    intro l slots h
    cases l with
    | nil => cases h
    | cons b rest =>
      simp only [parseHeadersLoopF] at h
      by_cases hb13 : b = 13
      · rw [if_pos hb13] at h
        cases hcr : parseCrLfTail rest with
        | complete r2 => rw [hcr] at h; cases h
        | incomplete => rw [hcr] at h; cases h
        | err e =>
          rw [hcr] at h
          cases h
          simpa using parseCrLfTail_err rest _ hcr
      · rw [if_neg hb13] at h
        by_cases hb10 : b = 10
        · rw [if_pos hb10] at h
          cases h
        · rw [if_neg hb10] at h
          by_cases hname : isHeaderNameChar b
          · rw [if_pos hname] at h
            split at h
            next => cases h
            next e hnm =>
              cases h
              simpa using parseHeaderNameLoop_err rest _ hnm
            next nm r1 hnm =>
              split at h
              next => cases h
              next e hval =>
                cases h
                simpa using parseHeaderValue_err r1 _ hval
              next v r2 hval =>
                have hr1 : r1.length < rest.length := parseHeaderNameLoop_lt rest nm r1 hnm
                have hr2 : r2.length < r1.length := parseHeaderValue_lt r1 v r2 hval
                split at h
                next =>
                  simp only [List.length_cons]
                  omega
                next slots0 =>
                  split at h
                  next => cases h
                  next => cases h
                  next e hrec =>
                    cases h
                    have := ih r2 slots0 hrec
                    simp only [List.length_cons]
                    omega
          · rw [if_neg hname] at h
            cases h

/-! Facts about the request-line phase and the full core parse. -/

theorem parsePreamble_le (buf : List Nat) (rl : RequestLine) (rem : List Nat)
    (h : parsePreamble buf = .complete (rl, rem)) : rem.length ≤ buf.length := by
  unfold parsePreamble at h
  split at h
  next => cases h
  next => cases h
  next l1 hskip =>
    split at h
    next => cases h
    next => cases h
    next method l2 htok =>
      split at h
      next => cases h
      next => cases h
      next path l3 huri =>
        split at h
        next => cases h
        next => cases h
        next v l4 hver =>
          split at h
          next => cases h
          next => cases h
          next l5 hnl =>
            cases h
            have h1 := skipEmptyLines_le buf _ hskip
            have h2 := parseToken_le l1 _ _ htok
            have h3 := parseUri_le l2 _ _ huri
            have h4 := parseVersion_le l3 _ _ hver
            have h5 := parseNewline_le l4 _ hnl
            omega

theorem parsePreamble_err (buf : List Nat) (e : HErr)
    (h : parsePreamble buf = .err e) : e ≠ .tooManyHeaders := by
  unfold parsePreamble at h
  split at h
  next => cases h
  next e2 hskip =>
    cases h
    have := skipEmptyLines_err buf _ hskip
    subst this
    simp
  next l1 hskip =>
    split at h
    next => cases h
    next e2 htok =>
      cases h
      have := parseToken_err l1 _ htok
      subst this
      simp
    next method l2 htok =>
      split at h
      next => cases h
      next e2 huri =>
        cases h
        have := parseUri_err l2 _ huri
        subst this
        simp
      next path l3 huri =>
        split at h
        next => cases h
        next e2 hver =>
          cases h
          have := parseVersion_err l3 _ hver
          subst this
          simp
        next v l4 hver =>
          split at h
          next => cases h
          next e2 hnl =>
            cases h
            have := parseNewline_err l4 _ hnl
            subst this
            simp
          next => cases h

/-- Facts about a complete core parse at capacity m: names are nonempty, the
header count is bounded by the capacity and the buffer length, any capacity
at least the count gives the same complete result, and any smaller capacity
gives the too-many-headers error. -/
theorem parseRequestCore_complete (buf : List Nat) (m n : Nat) (rl : RequestLine)
    (hs : List Header) (h : parseRequestCore buf m = .complete (n, rl, hs)) :
    (∀ x ∈ hs, x.name ≠ []) ∧ hs.length ≤ m ∧ hs.length ≤ buf.length ∧
    (∀ m', hs.length ≤ m' → parseRequestCore buf m' = .complete (n, rl, hs)) ∧
    (∀ m', m' < hs.length → parseRequestCore buf m' = .err .tooManyHeaders) := by
  unfold parseRequestCore at h
  split at h
  next => cases h
  next => cases h
  next rl0 rem hpre =>
    split at h
    next => cases h
    next => cases h
    next hs0 rest hloop =>
      cases h
      obtain ⟨hn, hc, hl, hm, ht⟩ :=
        parseHeadersLoopF_complete (rem.length + 1) rem _ hs rest hloop
      have hrle := parsePreamble_le buf _ rem hpre
      refine ⟨hn, hc, by omega, ?_, ?_⟩
      · intro m' hm'
        simp only [parseRequestCore, hpre, hm m' hm']
      · intro m' hm'
        simp only [parseRequestCore, hpre, ht m' hm']

/-- A too-many-headers error from the core parse means the capacity is below
the buffer length. -/
theorem parseRequestCore_tooMany (buf : List Nat) (m : Nat)
    (h : parseRequestCore buf m = .err .tooManyHeaders) : m < buf.length := by
  unfold parseRequestCore at h
  split at h
  next => cases h
  next e hpre =>
    cases h
    exact absurd rfl (parsePreamble_err buf _ hpre)
  next rl0 rem hpre =>
    split at h
    next => cases h
    next e hloop =>
      cases h
      have h1 := parseHeadersLoopF_tooMany (rem.length + 1) rem m hloop
      have h2 := parsePreamble_le buf _ rem hpre
      omega
    next => cases h

/-- Popping trailing empty-named headers removes exactly the padding added
after the actually parsed headers, whose names are all nonempty. -/
theorem popTrailingEmpty_pad (hs : List Header) (k : Nat)
    (hn : ∀ h ∈ hs, h.name ≠ []) :
    popTrailingEmpty (hs ++ List.replicate k emptyHeader) = hs := by
  unfold popTrailingEmpty
  rw [List.reverse_append, List.reverse_replicate]
  have hdrop : ∀ j, (List.replicate j emptyHeader ++ hs.reverse).dropWhile
      (fun h => h.name.isEmpty) = hs.reverse.dropWhile (fun h => h.name.isEmpty) := by
    intro j
    induction j with
    | zero => simp
    | succ j ih => simpa [List.replicate_succ, List.dropWhile_cons, emptyHeader] using ih
  rw [hdrop]
  cases hrev : hs.reverse with
  | nil =>
    have hnil : hs = [] := by simpa using congrArg List.reverse hrev
    simp [hnil]
  | cons a t =>
    have ha : a ∈ hs := by
      rw [← List.mem_reverse, hrev]
      simp
    have hne : a.name ≠ [] := hn a ha
    have hfalse : a.name.isEmpty = false := by
      cases hname : a.name with
      | nil => exact absurd hname hne
      | cons x xs => rfl
    rw [List.dropWhile_cons, hfalse]
    simp only [Bool.false_eq_true, if_false]
    rw [← hrev, List.reverse_reverse]

/-- Packaging a complete core parse through the padded header vector and
RequestHeaders::new recovers exactly the parsed headers. -/
theorem parseHttpBase_complete (buf : List Nat) (m n : Nat) (rl : RequestLine)
    (hs : List Header) (hcore : parseRequestCore buf m = .complete (n, rl, hs))
    (hn : ∀ x ∈ hs, x.name ≠ []) :
    parseHttpBase buf m = .ok (some (n, ⟨rl, hs⟩)) := by
  simp only [parseHttpBase, hcore, RequestHeaders.new]
  rw [popTrailingEmpty_pad hs _ hn]

theorem parseHttpBase_ne_tooMany (buf : List Nat) (m : Nat)
    (hne : parseRequestCore buf m ≠ .err .tooManyHeaders) :
    parseHttpBase buf m ≠ .error .tooManyHeaders := by
  unfold parseHttpBase
  split
  next => simp
  next => simp
  next e hcore =>
    intro hc
    cases hc
    exact hne hcore

/-! Facts about the capacity-doubling driver. -/

theorem parseHttpGrow_of_complete (buf : List Nat) (M n : Nat) (rl : RequestLine)
    (hs : List Header) (hM : parseRequestCore buf M = .complete (n, rl, hs)) :
    ∀ fuel m, hs.length ≤ m * 2 ^ fuel →
      parseHttpGrow fuel buf m = .ok (some (n, ⟨rl, hs⟩)) := by
  obtain ⟨hn, hcM, hlM, hmono, htoo⟩ := parseRequestCore_complete buf M n rl hs hM
  intro fuel
  induction fuel with
  | zero =>
    intro m hle
    simp only [pow_zero, Nat.mul_one] at hle
    rw [parseHttpGrow.eq_1]
    exact parseHttpBase_complete buf m n rl hs (hmono m hle) hn
  | succ fuel ih =>
    intro m hle
    by_cases hcap : hs.length ≤ m
    · have hc := hmono m hcap
      have hne : parseRequestCore buf m ≠ .err .tooManyHeaders := by
        rw [hc]
        simp
      rw [parseHttpGrow.eq_2, if_neg hne]
      exact parseHttpBase_complete buf m n rl hs hc hn
    · push_neg at hcap
      rw [parseHttpGrow.eq_2, if_pos (htoo m hcap)]
      apply ih (m * 2)
      rw [show m * 2 * 2 ^ fuel = m * 2 ^ (fuel + 1) from by ring]
      exact hle

theorem parseHttpGrow_ne_tooMany (buf : List Nat) :
    ∀ fuel m, buf.length ≤ m * 2 ^ fuel →
      parseHttpGrow fuel buf m ≠ .error .tooManyHeaders := by
  intro fuel
  induction fuel with
  | zero =>
    intro m hle
    simp only [pow_zero, Nat.mul_one] at hle
    have hne : parseRequestCore buf m ≠ .err .tooManyHeaders := by
      intro hc
      have := parseRequestCore_tooMany buf m hc
      omega
    rw [parseHttpGrow.eq_1]
    exact parseHttpBase_ne_tooMany buf m hne
  | succ fuel ih =>
    intro m hle
    by_cases hc : parseRequestCore buf m = .err .tooManyHeaders
    · rw [parseHttpGrow.eq_2, if_pos hc]
      apply ih (m * 2)
      rw [show m * 2 * 2 ^ fuel = m * 2 ^ (fuel + 1) from by ring]
      exact hle
    · rw [parseHttpGrow.eq_2, if_neg hc]
      exact parseHttpBase_ne_tooMany buf m hc

theorem parseHttpGrow_step (buf : List Nat) :
    ∀ fuel m, buf.length ≤ m * 2 ^ fuel →
      parseHttpGrow (fuel + 1) buf m = parseHttpGrow fuel buf m := by
  intro fuel
  induction fuel with
  | zero =>
    intro m hle
    simp only [pow_zero, Nat.mul_one] at hle
    have hne : parseRequestCore buf m ≠ .err .tooManyHeaders := by
      intro hc
      have := parseRequestCore_tooMany buf m hc
      omega
    rw [parseHttpGrow.eq_2, if_neg hne, parseHttpGrow.eq_1]
  | succ fuel ih =>
    intro m hle
    by_cases hc : parseRequestCore buf m = .err .tooManyHeaders
    · have h1 : parseHttpGrow (fuel + 1 + 1) buf m = parseHttpGrow (fuel + 1) buf (m * 2) := by
        rw [parseHttpGrow.eq_2, if_pos hc]
      have h2 : parseHttpGrow (fuel + 1) buf m = parseHttpGrow fuel buf (m * 2) := by
        rw [parseHttpGrow.eq_2, if_pos hc]
      rw [h1, h2]
      apply ih (m * 2)
      rw [show m * 2 * 2 ^ fuel = m * 2 ^ (fuel + 1) from by ring]
      exact hle
    · have h1 : parseHttpGrow (fuel + 1 + 1) buf m = parseHttpBase buf m := by
        rw [parseHttpGrow.eq_2, if_neg hc]
      have h2 : parseHttpGrow (fuel + 1) buf m = parseHttpBase buf m := by
        rw [parseHttpGrow.eq_2, if_neg hc]
      rw [h1, h2]

/-- C10: for any buffer and any initial capacity of at least one slot, the
capacity-doubling parse satisfies the recursion of parse_http_request_headers
and never hands the too-many-headers error to its caller: its result is a
complete parse, an incomplete indication, or a different parse error. -/
theorem c10_growth_terminates (buf : List Nat) (m : Nat) (hm : 1 ≤ m) :
    parse_http_request_headers buf m ≠ .error .tooManyHeaders ∧
    parse_http_request_headers buf m =
      (match parseRequestCore buf m with
       | .complete (n, rl, hs) =>
         .ok (some (n, RequestHeaders.new rl (hs ++ List.replicate (m - hs.length) emptyHeader)))
       | .incomplete => .ok none
       | .err .tooManyHeaders => parse_http_request_headers buf (m * 2)
       | .err e => .error e) := by
  have hp1 : buf.length < 2 ^ buf.length := Nat.lt_two_pow buf.length
  constructor
  · apply parseHttpGrow_ne_tooMany buf (buf.length + 1) m
    have h2 : 2 ^ buf.length ≤ 2 ^ (buf.length + 1) :=
      Nat.pow_le_pow_right (by omega) (by omega)
    have h3 : 2 ^ (buf.length + 1) = 1 * 2 ^ (buf.length + 1) := by ring
    have h4 : 1 * 2 ^ (buf.length + 1) ≤ m * 2 ^ (buf.length + 1) :=
      Nat.mul_le_mul_right _ hm
    omega
  · by_cases hc : parseRequestCore buf m = .err .tooManyHeaders
    · have hbound : buf.length ≤ m * 2 * 2 ^ buf.length := by
        have h2 : 2 ^ buf.length = 1 * 2 ^ buf.length := by ring
        have h3 : 1 * 2 ^ buf.length ≤ m * 2 * 2 ^ buf.length :=
          Nat.mul_le_mul_right _ (by omega)
        omega
      simp only [hc]
      unfold parse_http_request_headers
      rw [parseHttpGrow.eq_2, if_pos hc]
      exact (parseHttpGrow_step buf buf.length (m * 2) hbound).symm
    · unfold parse_http_request_headers
      rw [parseHttpGrow.eq_2, if_neg hc]
      cases hcore : parseRequestCore buf m with
      | complete p =>
        obtain ⟨n, rl, hs⟩ := p
        simp only [parseHttpBase, hcore]
      | incomplete => simp only [parseHttpBase, hcore]
      | err e =>
        cases e with
        | tooManyHeaders => exact absurd hcore hc
        | newLine => simp only [parseHttpBase, hcore]
        | token => simp only [parseHttpBase, hcore]
        | version => simp only [parseHttpBase, hcore]
        | headerName => simp only [parseHttpBase, hcore]
        | headerValue => simp only [parseHttpBase, hcore]

theorem c10_witness :
    parse_http_request_headers truncatedBuf 16 ≠ Except.error HErr.tooManyHeaders :=
  (c10_growth_terminates truncatedBuf 16 (by decide)).1

/-- C7: a complete request with more than 16 headers parses through
parse_http_request_headers at initial capacity 16 without error, the
resulting header list is exactly the headers present, in original order,
and it contains no padding or empty entries (every name is nonempty). -/
theorem c7_capacity_doubling (buf : List Nat) (M n : Nat) (rl : RequestLine)
    (hs : List Header) (hM : parseRequestCore buf M = .complete (n, rl, hs))
    (h16 : 16 < hs.length) :
    parse_http_request_headers buf 16 = .ok (some (n, ⟨rl, hs⟩)) ∧
    ∀ x ∈ hs, x.name ≠ [] := by
  obtain ⟨hn, hcM, hlM, hmono, htoo⟩ := parseRequestCore_complete buf M n rl hs hM
  refine ⟨?_, hn⟩
  unfold parse_http_request_headers
  apply parseHttpGrow_of_complete buf M n rl hs hM
  have h2 : buf.length < 2 ^ buf.length := Nat.lt_two_pow buf.length
  have h3 : 2 ^ buf.length ≤ 2 ^ (buf.length + 1) :=
    Nat.pow_le_pow_right (by omega) (by omega)
  have h4 : 2 ^ (buf.length + 1) = 1 * 2 ^ (buf.length + 1) := by ring
  have h5 : 1 * 2 ^ (buf.length + 1) ≤ 16 * 2 ^ (buf.length + 1) :=
    Nat.mul_le_mul_right _ (by omega)
  omega

theorem c7_witness :
    parse_http_request_headers manyHeadersBuf 16 =
      .ok (some (120, ⟨⟨[71, 69, 84], [47], 1⟩, manyHeadersList⟩)) ∧
    ∀ x ∈ manyHeadersList, x.name ≠ [] :=
  c7_capacity_doubling manyHeadersBuf 17 120 ⟨[71, 69, 84], [47], 1⟩ manyHeadersList
    (by decide) (by decide)

end TcpProxy
